import Mathlib

/-!
Shallow embedding of the vector-quantization compression core of
`src/datacompression11/App.tsx` (`compressWithVectorQuantization`, lines 242-405),
together with theorems settling the frozen claims about it.

Modelling conventions:
* image channels are `Nat` values in `[0,255]`; a pixel is an `(r,g,b,a)` record;
* squared distances are computed in `Int` (the source subtracts before squaring);
* JavaScript `Math.round(x)` for nonnegative `x = a / b` is `⌊(2a + b) / (2b)⌋`;
* `Infinity` (the initial `minDistance`) is `Option Int` with `none` above everything;
* `Math.random()`-driven choices are threaded explicitly: a stream `ρ : Nat → Nat`
  with a consumption counter; a reseed at counter `c` picks training index
  `ρ c % n` (the source picks `Math.floor(Math.random() * n)`, a uniform index);
* the randomized shuffle used by the `> 40000` subsampling branch
  (`[...pixels].sort(() => 0.5 - Math.random())`) is abstracted as a function
  argument `shuffle`;
* the PNG encoder and the file reader are outside the core: the Selector is
  modelled on the two byte strings it compares, as the spec describes.
-/

namespace VQ

/-- An RGB color vector: the source's 3-element pixel arrays `[r, g, b]`. -/
abbrev Color := Nat × Nat × Nat

/-- One RGBA pixel of the decoded image buffer (`imgData[i .. i+3]`). -/
structure Pixel where
  r : Nat
  g : Nat
  b : Nat
  a : Nat
deriving DecidableEq, Repr

/-- Source `euclideanDistanceSq`: `(v1[0]-v2[0])**2 + (v1[1]-v2[1])**2 + (v1[2]-v2[2])**2`. -/
def euclideanDistanceSq (v1 v2 : Color) : Int :=
  ((v1.1 : Int) - (v2.1 : Int)) * ((v1.1 : Int) - (v2.1 : Int))
    + ((v1.2.1 : Int) - (v2.2.1 : Int)) * ((v1.2.1 : Int) - (v2.2.1 : Int))
    + ((v1.2.2 : Int) - (v2.2.2 : Int)) * ((v1.2.2 : Int) - (v2.2.2 : Int))

/-- `d < m` where `m : Option Int` models `minDistance` initialized to `Infinity`
(`none`); every finite distance is below `Infinity`. -/
def ltInfty (d : Int) : Option Int → Bool
  | none => true
  | some m => decide (d < m)

/-- The inner loop of the source's nearest-entry searches: scan the remaining
codebook entries with running position `j`, current `minDistance` and current
`bestIndex`, updating on a strictly smaller distance (`distance < minDistance`). -/
def bestIdxAux (p : Color) : List Color → Nat → Option Int → Nat → Nat
  | [], _, _, best => best
  | c :: rest, j, minD, best =>
    if ltInfty (euclideanDistanceSq p c) minD then
      bestIdxAux p rest (j + 1) (some (euclideanDistanceSq p c)) j
    else
      bestIdxAux p rest (j + 1) minD best

/-- `bestIndex` for a color against a codebook: `minDistance = Infinity`,
`bestIndex = 0`, then scan all entries (source lines 304-312 and 353-361). -/
def bestIdx (p : Color) (codebook : List Color) : Nat :=
  bestIdxAux p codebook 0 none 0

/-- Assignment step (source lines 303-314): `assignments[i] = bestIndex` for
every training vector. -/
def assignStep (trainingPixels codebook : List Color) : List Nat :=
  trainingPixels.map fun p => bestIdx p codebook

/-- Componentwise color addition (`newCodebook[a][ch] += pixel[ch]`). -/
def addColor (x y : Color) : Color :=
  (x.1 + y.1, x.2.1 + y.2.1, x.2.2 + y.2.2)

/-- The accumulation loop of the update step (source lines 318-325): walk the
`(pixel, assignment)` pairs, adding each pixel into `newCodebook[assignment]`
and bumping `counts[assignment]`. -/
def accumAssign : List (Color × Nat) → List Color × List Nat → List Color × List Nat
  | [], acc => acc
  | (p, a) :: rest, (sums, counts) =>
    accumAssign rest
      (sums.set a (addColor (sums.getD a (0, 0, 0)) p), counts.set a (counts.getD a 0 + 1))

/-- JavaScript `Math.round (s / c)` for nonnegative operands: `⌊(2s + c) / (2c)⌋`. -/
def jsRound (s c : Nat) : Nat :=
  (2 * s + c) / (2 * c)

/-- `newCodebook[i].map (val => Math.round (val / counts[i]))` (source line 330). -/
def roundMean (s : Color) (c : Nat) : Color :=
  (jsRound s.1 c, jsRound s.2.1 c, jsRound s.2.2 c)

/-- The convergence comparison `euclideanDistanceSq newCentroid codebook[i] > 1e-4`
(source line 331).  The distance is always an integer, and for an integer `d`
the exact comparison `1/10000 < d` is equivalent to `1 < 10000 * d`. -/
def exceedsTol (d : Int) : Bool :=
  decide (1 < 10000 * d)

/-- The update loop over the codebook entries (source lines 327-338), walking the
codebook from absolute index `i0` with random counter `c`.  A nonempty cluster
becomes its rounded centroid and contributes to `hasChanged` when it moved by
more than `1e-4`; an empty cluster is reinitialized to the training vector at a
random index, consuming one random draw and never touching `hasChanged`.
Returns (updated entries, `hasChanged`, next random counter). -/
def updateEntries (trainingPixels : List Color) (sums : List Color) (counts : List Nat)
    (ρ : Nat → Nat) : List Color → Nat → Nat → List Color × Bool × Nat
  | [], _, c => ([], false, c)
  | e :: rest, i0, c =>
    if 0 < counts.getD i0 0 then
      let cen := roundMean (sums.getD i0 (0, 0, 0)) (counts.getD i0 0)
      match updateEntries trainingPixels sums counts ρ rest (i0 + 1) c with
      | (tl, ch, c') => (cen :: tl, (exceedsTol (euclideanDistanceSq cen e) || ch), c')
    else
      let pick := trainingPixels.getD (ρ c % trainingPixels.length) (0, 0, 0)
      match updateEntries trainingPixels sums counts ρ rest (i0 + 1) (c + 1) with
      | (tl, ch, c') => (pick :: tl, ch, c')

/-- One full K-means iteration body (source lines 303-338): assignment step,
accumulation into `K = 64` sums/counts, then the update loop. -/
def updateStep (trainingPixels codebook : List Color) (ρ : Nat → Nat) (c : Nat) :
    List Color × Bool × Nat :=
  let assignments := assignStep trainingPixels codebook
  match accumAssign (trainingPixels.zip assignments)
      (List.replicate 64 ((0, 0, 0) : Color), List.replicate 64 0) with
  | (sums, counts) => updateEntries trainingPixels sums counts ρ codebook 0 c

/-- The bounded iteration loop (source line 302 / 339): run up to `fuel`
iterations (`MAX_ITERATIONS = 10`), stopping after an iteration whose
`hasChanged` is false. -/
def kmeansLoop (trainingPixels : List Color) (ρ : Nat → Nat) :
    Nat → List Color → Nat → List Color
  | 0, codebook, _ => codebook
  | fuel + 1, codebook, c =>
    match updateStep trainingPixels codebook ρ c with
    | (cb2, ch, c2) => if ch then kmeansLoop trainingPixels ρ fuel cb2 c2 else cb2

/-- Vectorization (source lines 284-289): the colors of the pixels whose alpha
channel exceeds 128, in scan order. -/
def visibleColors (buffer : List Pixel) : List Color :=
  (buffer.filter fun px => 128 < px.a).map fun px => (px.r, px.g, px.b)

/-- `codebook[bestIndex]` — the color the Mapper writes for an input color. -/
def nearestColor (p : Color) (codebook : List Color) : Color :=
  codebook.getD (bestIdx p codebook) (0, 0, 0)

/-- The memoization cache lookup: the source keys a `Map` by the string
`r + "," + g + "," + b`, which is injective on channel triples, so the cache is
modelled as an association list keyed by the triple itself. -/
def cacheLookup (k : Color) : List (Color × Color) → Option Color
  | [] => none
  | (k2, v) :: rest => if k = k2 then some v else cacheLookup k rest

/-- Reconstruction loop (source lines 343-369) with its memoization cache: each
pixel's RGB is replaced by the cached or freshly computed nearest codebook
color; alpha is copied through (`newImageData.data[i+3] = imgData[i+3]`). -/
def mapPixelsAux (codebook : List Color) :
    List (Color × Color) → List Pixel → List Pixel
  | _, [] => []
  | cache, px :: rest =>
    let key : Color := (px.r, px.g, px.b)
    match cacheLookup key cache with
    | some v => ⟨v.1, v.2.1, v.2.2, px.a⟩ :: mapPixelsAux codebook cache rest
    | none =>
      let v := nearestColor key codebook
      ⟨v.1, v.2.1, v.2.2, px.a⟩ :: mapPixelsAux codebook ((key, v) :: cache) rest

/-- The Mapper as implemented: memoized pass over the whole buffer, starting
from an empty per-invocation cache. -/
def mapPixels (buffer : List Pixel) (codebook : List Color) : List Pixel :=
  mapPixelsAux codebook [] buffer

/-- Modelled from the spec (section 4.4), for the refinement claim about
memoization: the naive Mapper that performs a fresh nearest-codebook-entry
search for every pixel, with no cache. -/
def mapPixelsNaive (buffer : List Pixel) (codebook : List Color) : List Pixel :=
  buffer.map fun px =>
    let v := nearestColor (px.r, px.g, px.b) codebook
    ⟨v.1, v.2.1, v.2.2, px.a⟩

/-- The outcome of the in-memory part of the pipeline: the quantized pixel
buffer handed to the encoder, and the final codebook. -/
structure VQOutcome where
  mapped : List Pixel
  codebook : List Color
deriving DecidableEq, Repr

/-- The error message of the empty-image rejection (source line 290). -/
def emptyImageMsg : String :=
  "Image appears to be empty or fully transparent."

/-- The pipeline from the decoded pixel buffer to the quantized buffer
(source lines 283-369): vectorization, empty-image rejection, optional
subsampling (`PIXEL_SAMPLE_SIZE = 40000`), codebook seeding with the first
`K = 64` training vectors, the K-means loop, and the memoized reconstruction. -/
def runVQ (buffer : List Pixel) (ρ : Nat → Nat) (shuffle : List Color → List Color) :
    Except String VQOutcome :=
  let pixels := visibleColors buffer
  if pixels.length = 0 then
    .error emptyImageMsg
  else
    let trainingPixels := if 40000 < pixels.length then (shuffle pixels).take 40000 else pixels
    let codebook := kmeansLoop trainingPixels ρ 10 (trainingPixels.take 64) 0
    .ok ⟨mapPixels buffer codebook, codebook⟩

/-- The statistics record of a `VQResult` (source interface `CompressionStats`);
`reductionPercentage` is modelled in `ℚ`. -/
structure CompressionStats where
  originalSize : Nat
  compressedSize : Nat
  reductionPercentage : ℚ
deriving DecidableEq, Repr

/-- The Selector's result (source interface `VQResult`): the returned bytes, the
stats, whether the declared MIME type is `image/png`, and `compressionApplied`. -/
structure VQResult where
  finalBytes : List Nat
  stats : CompressionStats
  mimeIsPng : Bool
  compressionApplied : Bool
deriving DecidableEq, Repr

/-- The Selector (source lines 372-399): compare the quantized PNG byte length
against the original file size and return the smaller, with stats.
`origIsPng` is whether `file.type` is `image/png`. -/
def selector (originalBytes quantizedBytes : List Nat) (origIsPng : Bool) : VQResult :=
  let originalSize := originalBytes.length
  let vqCompressedSize := quantizedBytes.length
  if vqCompressedSize < originalSize then
    { finalBytes := quantizedBytes
      stats :=
        { originalSize := originalSize
          compressedSize := vqCompressedSize
          reductionPercentage :=
            ((originalSize : ℚ) - (vqCompressedSize : ℚ)) / (originalSize : ℚ) * 100 }
      mimeIsPng := true
      compressionApplied := true }
  else
    { finalBytes := originalBytes
      stats :=
        { originalSize := originalSize
          compressedSize := originalSize
          reductionPercentage := 0 }
      mimeIsPng := origIsPng
      compressionApplied := false }

/-- The Decoder's resize rule (source lines 265-276), `MAX_DIMENSION = 256`:
`Math.round((height * 256) / width)` is `jsRound (height * 256) width`. -/
def resize (width height : Nat) : Nat × Nat :=
  if height < width then
    if 256 < width then (256, jsRound (height * 256) width) else (width, height)
  else
    if 256 < height then (jsRound (width * 256) height, 256) else (width, height)

/-! Spec-side descriptions used to state the claims. -/

/-- The training vectors assigned to codebook index `j` in one iteration:
those whose nearest codebook entry (first-minimum tie-break) is `j`. -/
def clusterMembers (trainingPixels codebook : List Color) (j : Nat) : List Color :=
  trainingPixels.filter fun p => bestIdx p codebook = j

/-- Componentwise sum of a list of colors, accumulated left to right like the
source's `+=` loop. -/
def colorSum (l : List Color) : Color :=
  l.foldl addColor (0, 0, 0)

/-- The per-iteration cluster counts as the source computes them: `counts` after
the accumulation loop. -/
def iterCounts (trainingPixels codebook : List Color) : List Nat :=
  (accumAssign (trainingPixels.zip (assignStep trainingPixels codebook))
    (List.replicate 64 ((0, 0, 0) : Color), List.replicate 64 0)).2

/-- `noEmptyRun trainingPixels fuel codebook` holds when, along the K-means run
from `codebook` (which is independent of the random stream as long as the
condition keeps holding), every iteration leaves every codebook entry's cluster
nonempty, so the empty-cluster reseeding never fires.  The run is probed with
the constant stream `fun _ => 0`. -/
def noEmptyRun (trainingPixels : List Color) : Nat → List Color → Bool
  | 0, _ => true
  | fuel + 1, codebook =>
    let counts := iterCounts trainingPixels codebook
    ((List.range codebook.length).all fun j => decide (0 < counts.getD j 0)) &&
      (match updateStep trainingPixels codebook (fun _ => 0) 0 with
       | (cb2, ch, _) => if ch then noEmptyRun trainingPixels fuel cb2 else true)


/-- Distance from `p` to entry `i` of `cb` (default `(0,0,0)` out of range). -/
def entryDist (p : Color) (cb : List Color) (i : Nat) : Int :=
  euclideanDistanceSq p (cb.getD i (0, 0, 0))

lemma bestIdxAux_go (p : Color) (cb : List Color) :
    ∀ (rest : List Color) (j : Nat) (mv : Int) (b : Nat),
      cb.drop j = rest → j ≤ cb.length → b < j →
      entryDist p cb b = mv →
      (∀ i, i < j → mv ≤ entryDist p cb i) →
      (∀ i, i < b → mv < entryDist p cb i) →
      bestIdxAux p rest j (some mv) b < cb.length ∧
      (∀ i, i < cb.length →
        entryDist p cb (bestIdxAux p rest j (some mv) b) ≤ entryDist p cb i) ∧
      (∀ i, i < bestIdxAux p rest j (some mv) b →
        entryDist p cb (bestIdxAux p rest j (some mv) b) < entryDist p cb i) := by
  intro rest
  induction rest with
  | nil =>
    intro j mv b hdrop hj hb hdb hall hfirst
    have hred : bestIdxAux p [] j (some mv) b = b := rfl
    have hlen : cb.length ≤ j := by
      by_contra hlt
      push_neg at hlt
      have := List.drop_eq_getElem_cons hlt
      rw [hdrop] at this
      exact List.noConfusion this
    rw [hred]
    refine ⟨by omega, ?_, ?_⟩
    · intro i hi
      have := hall i (by omega)
      omega
    · intro i hi
      have := hfirst i hi
      omega
  | cons c rest' ih =>
    intro j mv b hdrop hj hb hdb hall hfirst
    have hjlt : j < cb.length := by
      by_contra hge
      push_neg at hge
      have : cb.drop j = [] := List.drop_eq_nil_of_le hge
      rw [hdrop] at this
      exact List.noConfusion this
    have hcons := List.drop_eq_getElem_cons hjlt
    rw [hdrop] at hcons
    injection hcons with h1 h2
    have hcd : euclideanDistanceSq p c = entryDist p cb j := by
      rw [h1, entryDist, List.getD_eq_getElem _ _ hjlt]
    simp only [bestIdxAux, ltInfty, decide_eq_true_eq]
    by_cases hlt : euclideanDistanceSq p c < mv
    · rw [if_pos hlt]
      exact ih (j + 1) (euclideanDistanceSq p c) j h2.symm (by omega) (by omega)
        hcd.symm
        (by
          intro i hi
          rcases Nat.lt_succ_iff_lt_or_eq.mp hi with hi' | hi'
          · exact le_of_lt (lt_of_lt_of_le hlt (hall i hi'))
          · subst hi'; exact le_of_eq hcd)
        (by
          intro i hi
          exact lt_of_lt_of_le hlt (hall i hi))
    · rw [if_neg hlt]
      exact ih (j + 1) mv b h2.symm (by omega) (by omega) hdb
        (by
          intro i hi
          rcases Nat.lt_succ_iff_lt_or_eq.mp hi with hi' | hi'
          · exact hall i hi'
          · subst hi'; rw [← hcd]; omega)
        hfirst

theorem bestIdx_spec (p : Color) (cb : List Color) (h : cb ≠ []) :
    bestIdx p cb < cb.length ∧
    (∀ i, i < cb.length → entryDist p cb (bestIdx p cb) ≤ entryDist p cb i) ∧
    (∀ i, i < bestIdx p cb → entryDist p cb (bestIdx p cb) < entryDist p cb i) := by
  match cb, h with
  | c0 :: tl, _ =>
    have h0 : entryDist p (c0 :: tl) 0 = euclideanDistanceSq p c0 := by
      simp [entryDist]
    have hstep : bestIdx p (c0 :: tl) = bestIdxAux p tl 1 (some (euclideanDistanceSq p c0)) 0 := by
      simp [bestIdx, bestIdxAux, ltInfty]
    rw [hstep]
    exact bestIdxAux_go p (c0 :: tl) tl 1 (euclideanDistanceSq p c0) 0
      (by simp) (by simp) (by omega) h0
      (by
        intro i hi
        have : i = 0 := by omega
        subst this
        omega)
      (by intro i hi; omega)


lemma getD_set_self {α : Type} (l : List α) (i : Nat) (a d : α) (h : i < l.length) :
    (l.set i a).getD i d = a := by
  rw [List.getD_eq_getElem?_getD, List.getElem?_set_self (by simpa using h)]
  rfl

lemma getD_set_ne {α : Type} (l : List α) {i j : Nat} (a d : α) (h : i ≠ j) :
    (l.set i a).getD j d = l.getD j d := by
  rw [List.getD_eq_getElem?_getD, List.getElem?_set_ne h, ← List.getD_eq_getElem?_getD]

lemma accumAssign_counts (pairs : List (Color × Nat)) :
    ∀ (sums : List Color) (counts : List Nat) (j : Nat),
      (∀ pa ∈ pairs, pa.2 < counts.length) →
      j < counts.length →
      (accumAssign pairs (sums, counts)).2.getD j 0
        = counts.getD j 0 + (pairs.filter fun pa => pa.2 = j).length := by
  induction pairs with
  | nil => intro sums counts j _ _; simp [accumAssign]
  | cons pa rest ih =>
    intro sums counts j hmem hj
    obtain ⟨p, a⟩ := pa
    rw [accumAssign]
    rw [ih _ _ j (by intro q hq; simpa using hmem q (List.mem_cons_of_mem _ hq))
      (by simpa using hj)]
    by_cases haj : a = j
    · subst haj
      rw [getD_set_self _ _ _ _ (hmem (p, a) (List.mem_cons_self _ _))]
      simp [List.filter_cons]
      omega
    · rw [getD_set_ne _ _ _ haj]
      simp only [List.filter_cons]
      have : decide ((p, a).2 = j) = false := by simp [haj]
      rw [this]
      simp

lemma accumAssign_sums (pairs : List (Color × Nat)) :
    ∀ (sums : List Color) (counts : List Nat) (j : Nat),
      (∀ pa ∈ pairs, pa.2 < sums.length) →
      j < sums.length →
      (accumAssign pairs (sums, counts)).1.getD j (0, 0, 0)
        = ((pairs.filter fun pa => pa.2 = j).map fun pa => pa.1).foldl addColor
            (sums.getD j (0, 0, 0)) := by
  induction pairs with
  | nil => intro sums counts j _ _; simp [accumAssign]
  | cons pa rest ih =>
    intro sums counts j hmem hj
    obtain ⟨p, a⟩ := pa
    rw [accumAssign]
    rw [ih _ _ j (by intro q hq; simpa using hmem q (List.mem_cons_of_mem _ hq))
      (by simpa using hj)]
    by_cases haj : a = j
    · subst haj
      rw [getD_set_self _ _ _ _ (hmem (p, a) (List.mem_cons_self _ _))]
      simp [List.filter_cons]
    · rw [getD_set_ne _ _ _ haj]
      simp only [List.filter_cons]
      have : decide ((p, a).2 = j) = false := by simp [haj]
      rw [this]
      simp

lemma accumAssign_counts_length (pairs : List (Color × Nat)) :
    ∀ (sums : List Color) (counts : List Nat),
      (accumAssign pairs (sums, counts)).2.length = counts.length := by
  induction pairs with
  | nil => intro sums counts; simp [accumAssign]
  | cons pa rest ih =>
    intro sums counts
    obtain ⟨p, a⟩ := pa
    rw [accumAssign, ih]
    simp

lemma zip_map_filter (f : Color → Nat) (j : Nat) :
    ∀ (training : List Color),
      ((training.zip (training.map f)).filter fun pa => pa.2 = j)
        = (training.filter fun p => f p = j).map fun p => (p, j) := by
  intro training
  induction training with
  | nil => simp
  | cons t ts ih =>
    simp only [List.map_cons, List.zip_cons_cons, List.filter_cons]
    by_cases hfj : f t = j
    · subst hfj
      simp [ih]
    · have h1 : decide ((t, f t).2 = j) = false := by simp [hfj]
      rw [h1]
      simp [ih]


lemma updateEntries_cons_pos (tp sums : List Color) (counts : List Nat) (ρ : Nat → Nat)
    (e : Color) (rest : List Color) (i0 c : Nat) (h : 0 < counts.getD i0 0) :
    updateEntries tp sums counts ρ (e :: rest) i0 c
      = (roundMean (sums.getD i0 (0, 0, 0)) (counts.getD i0 0)
            :: (updateEntries tp sums counts ρ rest (i0 + 1) c).1,
         (exceedsTol (euclideanDistanceSq
            (roundMean (sums.getD i0 (0, 0, 0)) (counts.getD i0 0)) e)
           || (updateEntries tp sums counts ρ rest (i0 + 1) c).2.1),
         (updateEntries tp sums counts ρ rest (i0 + 1) c).2.2) := by
  rw [updateEntries, if_pos h]

lemma updateEntries_cons_zero (tp sums : List Color) (counts : List Nat) (ρ : Nat → Nat)
    (e : Color) (rest : List Color) (i0 c : Nat) (h : ¬ 0 < counts.getD i0 0) :
    updateEntries tp sums counts ρ (e :: rest) i0 c
      = (tp.getD (ρ c % tp.length) (0, 0, 0)
            :: (updateEntries tp sums counts ρ rest (i0 + 1) (c + 1)).1,
         (updateEntries tp sums counts ρ rest (i0 + 1) (c + 1)).2.1,
         (updateEntries tp sums counts ρ rest (i0 + 1) (c + 1)).2.2) := by
  rw [updateEntries, if_neg h]

lemma updateEntries_length (tp sums : List Color) (counts : List Nat) (ρ : Nat → Nat) :
    ∀ (cb : List Color) (i0 c : Nat),
      (updateEntries tp sums counts ρ cb i0 c).1.length = cb.length := by
  intro cb
  induction cb with
  | nil => intro i0 c; rfl
  | cons e rest ih =>
    intro i0 c
    by_cases h : 0 < counts.getD i0 0
    · rw [updateEntries_cons_pos _ _ _ _ _ _ _ _ h]
      simp [ih]
    · rw [updateEntries_cons_zero _ _ _ _ _ _ _ _ h]
      simp [ih]

lemma updateEntries_getD_pos (tp sums : List Color) (counts : List Nat) (ρ : Nat → Nat) :
    ∀ (cb : List Color) (i0 c j : Nat), j < cb.length → 0 < counts.getD (i0 + j) 0 →
      (updateEntries tp sums counts ρ cb i0 c).1.getD j (0, 0, 0)
        = roundMean (sums.getD (i0 + j) (0, 0, 0)) (counts.getD (i0 + j) 0) := by
  intro cb
  induction cb with
  | nil => intro i0 c j hj; simp at hj
  | cons e rest ih =>
    intro i0 c j hj hcnt
    match j with
    | 0 =>
      have h0 : 0 < counts.getD i0 0 := by simpa using hcnt
      rw [updateEntries_cons_pos _ _ _ _ _ _ _ _ h0]
      simp
    | j' + 1 =>
      have hshift : i0 + (j' + 1) = (i0 + 1) + j' := by omega
      by_cases h : 0 < counts.getD i0 0
      · rw [updateEntries_cons_pos _ _ _ _ _ _ _ _ h]
        simp only [List.getD_cons_succ]
        rw [ih (i0 + 1) c j' (by simpa using hj) (by rw [← hshift]; exact hcnt), ← hshift]
      · rw [updateEntries_cons_zero _ _ _ _ _ _ _ _ h]
        simp only [List.getD_cons_succ]
        rw [ih (i0 + 1) (c + 1) j' (by simpa using hj) (by rw [← hshift]; exact hcnt), ← hshift]

lemma updateEntries_getD_zero_mem (tp sums : List Color) (counts : List Nat) (ρ : Nat → Nat)
    (htp : tp ≠ []) :
    ∀ (cb : List Color) (i0 c j : Nat), j < cb.length → counts.getD (i0 + j) 0 = 0 →
      (updateEntries tp sums counts ρ cb i0 c).1.getD j (0, 0, 0) ∈ tp := by
  intro cb
  induction cb with
  | nil => intro i0 c j hj; simp at hj
  | cons e rest ih =>
    intro i0 c j hj hcnt
    match j with
    | 0 =>
      have h0 : ¬ 0 < counts.getD i0 0 := by
        simp only [Nat.add_zero] at hcnt
        omega
      rw [updateEntries_cons_zero _ _ _ _ _ _ _ _ h0]
      simp only [List.getD_cons_zero]
      have hlen : 0 < tp.length := List.length_pos.mpr htp
      have hmod : ρ c % tp.length < tp.length := Nat.mod_lt _ hlen
      rw [List.getD_eq_getElem _ _ hmod]
      exact List.getElem_mem hmod
    | j' + 1 =>
      have hshift : i0 + (j' + 1) = (i0 + 1) + j' := by omega
      by_cases h : 0 < counts.getD i0 0
      · rw [updateEntries_cons_pos _ _ _ _ _ _ _ _ h]
        simp only [List.getD_cons_succ]
        exact ih (i0 + 1) c j' (by simpa using hj) (by rw [← hshift]; exact hcnt)
      · rw [updateEntries_cons_zero _ _ _ _ _ _ _ _ h]
        simp only [List.getD_cons_succ]
        exact ih (i0 + 1) (c + 1) j' (by simpa using hj) (by rw [← hshift]; exact hcnt)

lemma updateEntries_changed_iff (tp sums : List Color) (counts : List Nat) (ρ : Nat → Nat) :
    ∀ (cb : List Color) (i0 c : Nat),
      (updateEntries tp sums counts ρ cb i0 c).2.1 = true ↔
        ∃ j, j < cb.length ∧ 0 < counts.getD (i0 + j) 0 ∧
          exceedsTol (euclideanDistanceSq
            (roundMean (sums.getD (i0 + j) (0, 0, 0)) (counts.getD (i0 + j) 0))
            (cb.getD j (0, 0, 0))) = true := by
  intro cb
  induction cb with
  | nil =>
    intro i0 c
    constructor
    · intro h; exact absurd h (by simp [updateEntries])
    · rintro ⟨j, hj, -⟩; simp at hj
  | cons e rest ih =>
    intro i0 c
    by_cases h : 0 < counts.getD i0 0
    · rw [updateEntries_cons_pos _ _ _ _ _ _ _ _ h]
      simp only [Bool.or_eq_true]
      constructor
      · rintro (hhead | htail)
        · exact ⟨0, by simp, by simpa using h, by simpa using hhead⟩
        · obtain ⟨j, hj, hc, hx⟩ := (ih (i0 + 1) c).mp htail
          exact ⟨j + 1, by simpa using hj, by rw [show i0 + (j + 1) = (i0 + 1) + j by omega]; exact hc,
            by simpa [show i0 + (j + 1) = (i0 + 1) + j by omega] using hx⟩
      · rintro ⟨j, hj, hc, hx⟩
        match j with
        | 0 => exact Or.inl (by simpa using hx)
        | j' + 1 =>
          refine Or.inr ((ih (i0 + 1) c).mpr ⟨j', by simpa using hj, ?_, ?_⟩)
          · rw [show (i0 + 1) + j' = i0 + (j' + 1) by omega]; exact hc
          · simpa [show (i0 + 1) + j' = i0 + (j' + 1) by omega] using hx
    · rw [updateEntries_cons_zero _ _ _ _ _ _ _ _ h]
      constructor
      · intro htail
        obtain ⟨j, hj, hc, hx⟩ := (ih (i0 + 1) (c + 1)).mp htail
        exact ⟨j + 1, by simpa using hj, by rw [show i0 + (j + 1) = (i0 + 1) + j by omega]; exact hc,
          by simpa [show i0 + (j + 1) = (i0 + 1) + j by omega] using hx⟩
      · rintro ⟨j, hj, hc, hx⟩
        match j with
        | 0 => exact absurd hc (by simpa using h)
        | j' + 1 =>
          refine (ih (i0 + 1) (c + 1)).mpr ⟨j', by simpa using hj, ?_, ?_⟩
          · rw [show (i0 + 1) + j' = i0 + (j' + 1) by omega]; exact hc
          · simpa [show (i0 + 1) + j' = i0 + (j' + 1) by omega] using hx

lemma updateEntries_rng_irrel (tp sums : List Color) (counts : List Nat) :
    ∀ (cb : List Color) (i0 : Nat),
      (∀ j, j < cb.length → 0 < counts.getD (i0 + j) 0) →
      ∀ (ρ1 : Nat → Nat) (c1 : Nat) (ρ2 : Nat → Nat) (c2 : Nat),
        (updateEntries tp sums counts ρ1 cb i0 c1).1
          = (updateEntries tp sums counts ρ2 cb i0 c2).1 ∧
        (updateEntries tp sums counts ρ1 cb i0 c1).2.1
          = (updateEntries tp sums counts ρ2 cb i0 c2).2.1 := by
  intro cb
  induction cb with
  | nil => intro i0 _ ρ1 c1 ρ2 c2; exact ⟨rfl, rfl⟩
  | cons e rest ih =>
    intro i0 hpos ρ1 c1 ρ2 c2
    have h0 : 0 < counts.getD i0 0 := by simpa using hpos 0 (by simp)
    rw [updateEntries_cons_pos _ _ _ _ _ _ _ _ h0, updateEntries_cons_pos _ _ _ _ _ _ _ _ h0]
    have htail := ih (i0 + 1)
      (by
        intro j hj
        rw [show (i0 + 1) + j = i0 + (j + 1) by omega]
        exact hpos (j + 1) (by simpa using hj))
      ρ1 c1 ρ2 c2
    simp [htail.1, htail.2]


lemma getD_replicate {α : Type} {n j : Nat} (d v : α) (h : j < n) :
    (List.replicate n v).getD j d = v := by
  rw [List.getD_eq_getElem _ _ (by simpa using h)]
  simp

lemma updateStep_eq (tp cb : List Color) (ρ : Nat → Nat) (c : Nat) :
    updateStep tp cb ρ c = updateEntries tp
      (accumAssign (tp.zip (assignStep tp cb))
        (List.replicate 64 ((0, 0, 0) : Color), List.replicate 64 0)).1
      (accumAssign (tp.zip (assignStep tp cb))
        (List.replicate 64 ((0, 0, 0) : Color), List.replicate 64 0)).2
      ρ cb 0 c := rfl

lemma assign_lt (tp cb : List Color) (hne : cb ≠ []) :
    ∀ pa ∈ tp.zip (assignStep tp cb), pa.2 < cb.length := by
  rintro ⟨p, a⟩ hpa
  have h2 := (List.of_mem_zip hpa).2
  rw [assignStep] at h2
  obtain ⟨q, -, hq⟩ := List.mem_map.mp h2
  simpa [← hq] using (bestIdx_spec q cb hne).1

lemma iterCounts_getD (tp cb : List Color) (hne : cb ≠ []) (hk : cb.length ≤ 64)
    {j : Nat} (hj : j < 64) :
    (iterCounts tp cb).getD j 0 = (clusterMembers tp cb j).length := by
  rw [iterCounts, accumAssign_counts _ _ _ _
    (by
      intro pa hpa
      have := assign_lt tp cb hne pa hpa
      simpa using lt_of_lt_of_le this hk)
    (by simpa using hj)]
  rw [getD_replicate _ _ hj, assignStep, zip_map_filter]
  simp [clusterMembers]

lemma iterSums_getD (tp cb : List Color) (hne : cb ≠ []) (hk : cb.length ≤ 64)
    {j : Nat} (hj : j < 64) :
    (accumAssign (tp.zip (assignStep tp cb))
        (List.replicate 64 ((0, 0, 0) : Color), List.replicate 64 0)).1.getD j (0, 0, 0)
      = colorSum (clusterMembers tp cb j) := by
  rw [accumAssign_sums _ _ _ _
    (by
      intro pa hpa
      have := assign_lt tp cb hne pa hpa
      simpa using lt_of_lt_of_le this hk)
    (by simpa using hj)]
  rw [getD_replicate _ _ hj, assignStep, zip_map_filter]
  rw [colorSum, clusterMembers]
  congr 1
  generalize tp.filter (fun p => decide (bestIdx p cb = j)) = l
  induction l with
  | nil => rfl
  | cons x xs ihl => simp [ihl]

lemma updateStep_length (tp cb : List Color) (ρ : Nat → Nat) (c : Nat) :
    (updateStep tp cb ρ c).1.length = cb.length := by
  rw [updateStep_eq]
  exact updateEntries_length _ _ _ _ cb 0 c

lemma kmeansLoop_succ (tp : List Color) (ρ : Nat → Nat) (fuel : Nat) (cb : List Color)
    (c : Nat) :
    kmeansLoop tp ρ (fuel + 1) cb c
      = (if (updateStep tp cb ρ c).2.1 then
           kmeansLoop tp ρ fuel (updateStep tp cb ρ c).1 (updateStep tp cb ρ c).2.2
         else (updateStep tp cb ρ c).1) := rfl

lemma kmeansLoop_length (tp : List Color) (ρ : Nat → Nat) :
    ∀ (fuel : Nat) (cb : List Color) (c : Nat),
      (kmeansLoop tp ρ fuel cb c).length = cb.length := by
  intro fuel
  induction fuel with
  | zero => intro cb c; rfl
  | succ n ih =>
    intro cb c
    rw [kmeansLoop_succ]
    by_cases h : (updateStep tp cb ρ c).2.1
    · rw [if_pos h, ih, updateStep_length]
    · rw [if_neg h, updateStep_length]

lemma noEmptyRun_succ (tp : List Color) (fuel : Nat) (cb : List Color) :
    noEmptyRun tp (fuel + 1) cb
      = (((List.range cb.length).all fun j => decide (0 < (iterCounts tp cb).getD j 0)) &&
         (if (updateStep tp cb (fun _ => 0) 0).2.1 then
            noEmptyRun tp fuel (updateStep tp cb (fun _ => 0) 0).1
          else true)) := rfl

lemma updateStep_rng_irrel (tp cb : List Color)
    (hpos : ∀ j, j < cb.length → 0 < (iterCounts tp cb).getD j 0)
    (ρ1 : Nat → Nat) (c1 : Nat) (ρ2 : Nat → Nat) (c2 : Nat) :
    (updateStep tp cb ρ1 c1).1 = (updateStep tp cb ρ2 c2).1 ∧
    (updateStep tp cb ρ1 c1).2.1 = (updateStep tp cb ρ2 c2).2.1 := by
  rw [updateStep_eq tp cb ρ1 c1, updateStep_eq tp cb ρ2 c2]
  exact updateEntries_rng_irrel _ _ _ cb 0
    (by intro j hj; simpa using hpos j hj) ρ1 c1 ρ2 c2

lemma kmeansLoop_rng_irrel (tp : List Color) :
    ∀ (fuel : Nat) (cb : List Color), noEmptyRun tp fuel cb = true →
      ∀ (ρ1 : Nat → Nat) (c1 : Nat) (ρ2 : Nat → Nat) (c2 : Nat),
        kmeansLoop tp ρ1 fuel cb c1 = kmeansLoop tp ρ2 fuel cb c2 := by
  intro fuel
  induction fuel with
  | zero => intro cb _ ρ1 c1 ρ2 c2; rfl
  | succ n ih =>
    intro cb hrun ρ1 c1 ρ2 c2
    rw [noEmptyRun_succ, Bool.and_eq_true] at hrun
    have hpos : ∀ j, j < cb.length → 0 < (iterCounts tp cb).getD j 0 := by
      intro j hj
      have := List.all_eq_true.mp hrun.1 j (List.mem_range.mpr hj)
      simpa using this
    have h1 := updateStep_rng_irrel tp cb hpos ρ1 c1 (fun _ => 0) 0
    have h2 := updateStep_rng_irrel tp cb hpos ρ2 c2 (fun _ => 0) 0
    rw [kmeansLoop_succ, kmeansLoop_succ, h1.1, h1.2, h2.1, h2.2]
    by_cases hch : (updateStep tp cb (fun _ => 0) 0).2.1
    · rw [if_pos hch, if_pos hch]
      have hrec : noEmptyRun tp n (updateStep tp cb (fun _ => 0) 0).1 = true := by
        have := hrun.2
        rw [if_pos hch] at this
        exact this
      exact ih _ hrec ρ1 _ ρ2 _
    · rw [if_neg hch, if_neg hch]


lemma cacheLookup_mem (k v : Color) :
    ∀ cache, cacheLookup k cache = some v → (k, v) ∈ cache := by
  intro cache
  induction cache with
  | nil => intro h; exact absurd h (by simp [cacheLookup])
  | cons kv rest ih =>
    obtain ⟨k2, v2⟩ := kv
    intro h
    rw [cacheLookup] at h
    by_cases hk : k = k2
    · rw [if_pos hk] at h
      injection h with h
      rw [hk, ← h]
      exact List.mem_cons_self _ _
    · rw [if_neg hk] at h
      exact List.mem_cons_of_mem _ (ih h)

lemma mapPixelsAux_eq_naive (cb : List Color) :
    ∀ (buffer : List Pixel) (cache : List (Color × Color)),
      (∀ kv ∈ cache, kv.2 = nearestColor kv.1 cb) →
      mapPixelsAux cb cache buffer = mapPixelsNaive buffer cb := by
  intro buffer
  induction buffer with
  | nil => intro cache _; rfl
  | cons px rest ih =>
    intro cache hinv
    rw [mapPixelsAux, mapPixelsNaive, List.map_cons]
    cases hcl : cacheLookup (px.r, px.g, px.b) cache with
    | some v =>
      have hv : v = nearestColor (px.r, px.g, px.b) cb :=
        hinv _ (cacheLookup_mem _ _ _ hcl)
      rw [hv]
      exact congrArg _ (ih cache hinv)
    | none =>
      refine congrArg _ (ih _ ?_)
      intro kv hkv
      rcases List.mem_cons.mp hkv with h | h
      · rw [h]
      · exact hinv kv h

lemma mapPixels_eq_naive (buffer : List Pixel) (cb : List Color) :
    mapPixels buffer cb = mapPixelsNaive buffer cb :=
  mapPixelsAux_eq_naive cb buffer [] (by intro kv h; exact absurd h (List.not_mem_nil kv))

lemma mapPixelsNaive_alpha (buffer : List Pixel) (cb : List Color) :
    (mapPixelsNaive buffer cb).map Pixel.a = buffer.map Pixel.a := by
  rw [mapPixelsNaive, List.map_map]
  rfl

lemma nearestColor_mem (p : Color) (cb : List Color) (h : cb ≠ []) :
    nearestColor p cb ∈ cb := by
  rw [nearestColor, List.getD_eq_getElem _ _ (bestIdx_spec p cb h).1]
  exact List.getElem_mem _

lemma mapPixelsNaive_rgb_mem (buffer : List Pixel) (cb : List Color) (h : cb ≠ []) :
    ∀ px ∈ mapPixelsNaive buffer cb, (px.r, px.g, px.b) ∈ cb := by
  intro px hpx
  rw [mapPixelsNaive] at hpx
  obtain ⟨q, -, hq⟩ := List.mem_map.mp hpx
  have : (px.r, px.g, px.b) = nearestColor (q.r, q.g, q.b) cb := by
    rw [← hq]
  rw [this]
  exact nearestColor_mem _ _ h

lemma visibleColors_eq_nil_iff (buffer : List Pixel) :
    visibleColors buffer = [] ↔ ∀ px ∈ buffer, px.a ≤ 128 := by
  rw [visibleColors]
  constructor
  · intro h px hpx
    by_contra hgt
    push_neg at hgt
    have : px ∈ buffer.filter fun px => 128 < px.a :=
      List.mem_filter.mpr ⟨hpx, by simpa using hgt⟩
    rw [List.map_eq_nil_iff] at h
    rw [h] at this
    exact absurd this (List.not_mem_nil px)
  · intro h
    rw [List.map_eq_nil_iff, List.filter_eq_nil_iff]
    intro px hpx
    simpa using h px hpx

lemma runVQ_error_iff (buffer : List Pixel) (ρ : Nat → Nat) (shuffle : List Color → List Color) :
    runVQ buffer ρ shuffle = .error emptyImageMsg ↔ ∀ px ∈ buffer, px.a ≤ 128 := by
  rw [runVQ]
  by_cases h : (visibleColors buffer).length = 0
  · rw [if_pos h]
    simp only [true_iff]
    exact (visibleColors_eq_nil_iff buffer).mp (List.length_eq_zero.mp h)
  · rw [if_neg h]
    constructor
    · intro hcontra
      exact absurd hcontra (by simp)
    · intro hall
      exact absurd (List.length_eq_zero.mpr ((visibleColors_eq_nil_iff buffer).mpr hall)) h

lemma runVQ_ok (buffer : List Pixel) (ρ : Nat → Nat) (shuffle : List Color → List Color)
    (h : ¬ (visibleColors buffer).length = 0) :
    runVQ buffer ρ shuffle =
      .ok ⟨mapPixels buffer
             (kmeansLoop (if 40000 < (visibleColors buffer).length
                 then (shuffle (visibleColors buffer)).take 40000
                 else visibleColors buffer) ρ 10
               ((if 40000 < (visibleColors buffer).length
                 then (shuffle (visibleColors buffer)).take 40000
                 else visibleColors buffer).take 64) 0),
           kmeansLoop (if 40000 < (visibleColors buffer).length
               then (shuffle (visibleColors buffer)).take 40000
               else visibleColors buffer) ρ 10
             ((if 40000 < (visibleColors buffer).length
               then (shuffle (visibleColors buffer)).take 40000
               else visibleColors buffer).take 64) 0⟩ := by
  rw [runVQ, if_neg h]

lemma jsRound_le_256 {h w : Nat} (hle : h ≤ w) (hw : 0 < w) :
    jsRound (h * 256) w ≤ 256 := by
  rw [jsRound]
  have : (2 * (h * 256) + w) / (2 * w) < 257 := by
    rw [Nat.div_lt_iff_lt_mul (by omega)]
    omega
  omega

lemma jsRound_pos {h w : Nat} (hw : 0 < w) (hge : w ≤ 512 * h) :
    0 < jsRound (h * 256) w := by
  rw [jsRound]
  have : 1 ≤ (2 * (h * 256) + w) / (2 * w) := by
    rw [Nat.le_div_iff_mul_le (by omega)]
    omega
  omega


/-- The training set the pipeline uses: the visible colors, subsampled only when
they number more than 40000 (source lines 294-296). -/
def trainingOf (buffer : List Pixel) (shuffle : List Color → List Color) : List Color :=
  if 40000 < (visibleColors buffer).length then (shuffle (visibleColors buffer)).take 40000
  else visibleColors buffer

/-- The final codebook of a pipeline invocation. -/
def codebookOf (buffer : List Pixel) (ρ : Nat → Nat) (shuffle : List Color → List Color) :
    List Color :=
  kmeansLoop (trainingOf buffer shuffle) ρ 10 ((trainingOf buffer shuffle).take 64) 0

lemma runVQ_ok' (buffer : List Pixel) (ρ : Nat → Nat) (shuffle : List Color → List Color)
    (h : ¬ (visibleColors buffer).length = 0) :
    runVQ buffer ρ shuffle =
      .ok ⟨mapPixels buffer (codebookOf buffer ρ shuffle), codebookOf buffer ρ shuffle⟩ :=
  runVQ_ok buffer ρ shuffle h

/-! Concrete fixtures used by witnesses and counterexamples. -/

/-- A single fully opaque pixel. -/
def bufOne : List Pixel := [⟨5, 5, 5, 255⟩]

/-- Two fully opaque pixels of distinct colors. -/
def bufTwo : List Pixel := [⟨10, 0, 0, 255⟩, ⟨20, 0, 0, 255⟩]

/-- Four visible pixels with red values 0, 0, 10, 20 and one fully transparent
probe pixel with red value 15, equidistant from 10 and 20. -/
def bufProbe : List Pixel :=
  [⟨0, 0, 0, 255⟩, ⟨0, 0, 0, 255⟩, ⟨10, 0, 0, 255⟩, ⟨20, 0, 0, 255⟩, ⟨15, 0, 0, 0⟩]

/-- Three training vectors with a duplicate, so cluster 1 is always empty. -/
def trainTriple : List Color := [(0, 0, 0), (0, 0, 0), (9, 9, 9)]

/-- A random stream that always picks index 0. -/
def rngZero : Nat → Nat := fun _ => 0

/-- A random stream that always picks index 2. -/
def rngTwo : Nat → Nat := fun _ => 2

/-- A random stream that always picks index 3. -/
def rngThree : Nat → Nat := fun _ => 3

/-- C1: the Selector returns the quantized encoding with `compressionApplied = true` and
`reductionPercentage = (original - compressed) / original * 100` exactly when the
quantized byte length is strictly below the original's; otherwise it returns the original
bytes with `compressionApplied = false`, `compressedSize = originalSize` and zero
reduction; in every case `compressedSize ≤ originalSize`. -/
theorem selector_decision_rule (orig quant : List Nat) (om : Bool) :
    ((selector orig quant om).compressionApplied = true ↔ quant.length < orig.length) ∧
    (quant.length < orig.length →
      selector orig quant om =
        ⟨quant, ⟨orig.length, quant.length,
          ((orig.length : ℚ) - (quant.length : ℚ)) / (orig.length : ℚ) * 100⟩, true, true⟩) ∧
    (¬ quant.length < orig.length →
      selector orig quant om = ⟨orig, ⟨orig.length, orig.length, 0⟩, om, false⟩) ∧
    (selector orig quant om).stats.compressedSize ≤ orig.length := by
  by_cases h : quant.length < orig.length
  · refine ⟨by simp [selector, h], fun _ => by simp [selector, h], fun hn => absurd h hn, ?_⟩
    simp only [selector, if_pos h]
    omega
  · refine ⟨by simp [selector, h], fun hy => absurd hy h, fun _ => by simp [selector, h], ?_⟩
    simp only [selector, if_neg h]
    omega

/-- C1 witness: the decision rule evaluated at original bytes `[0,0,0]` and quantized
bytes `[7]`. -/
theorem selector_decision_rule_witness :
    ((selector [0, 0, 0] [7] false).compressionApplied = true ↔
      ([7] : List Nat).length < ([0, 0, 0] : List Nat).length) ∧
    (([7] : List Nat).length < ([0, 0, 0] : List Nat).length →
      selector [0, 0, 0] [7] false =
        ⟨[7], ⟨([0, 0, 0] : List Nat).length, ([7] : List Nat).length,
          ((([0, 0, 0] : List Nat).length : ℚ) - (([7] : List Nat).length : ℚ)) /
            (([0, 0, 0] : List Nat).length : ℚ) * 100⟩, true, true⟩) ∧
    (¬ ([7] : List Nat).length < ([0, 0, 0] : List Nat).length →
      selector [0, 0, 0] [7] false =
        ⟨[0, 0, 0], ⟨([0, 0, 0] : List Nat).length, ([0, 0, 0] : List Nat).length, 0⟩,
          false, false⟩) ∧
    (selector [0, 0, 0] [7] false).stats.compressedSize ≤ ([0, 0, 0] : List Nat).length :=
  selector_decision_rule [0, 0, 0] [7] false

/-- C3: the Mapper copies every pixel's alpha channel through unchanged. -/
theorem mapper_alpha_preserved (buffer : List Pixel) (cb : List Color) :
    (mapPixels buffer cb).map Pixel.a = buffer.map Pixel.a := by
  rw [mapPixels_eq_naive]
  exact mapPixelsNaive_alpha buffer cb

/-- C8: the pipeline fails with the empty-image error exactly when no pixel has alpha
above 128, and succeeds with a result exactly when some pixel does. -/
theorem empty_image_error_iff (buffer : List Pixel) (ρ : Nat → Nat)
    (sh : List Color → List Color) :
    (runVQ buffer ρ sh = .error emptyImageMsg ↔ ∀ px ∈ buffer, px.a ≤ 128) ∧
    ((∃ px ∈ buffer, 128 < px.a) ↔ ∃ out, runVQ buffer ρ sh = .ok out) := by
  refine ⟨runVQ_error_iff buffer ρ sh, ?_⟩
  by_cases h : (visibleColors buffer).length = 0
  · have hall := (visibleColors_eq_nil_iff buffer).mp (List.length_eq_zero.mp h)
    constructor
    · rintro ⟨px, hpx, hgt⟩
      have := hall px hpx
      omega
    · rintro ⟨out, hout⟩
      rw [runVQ, if_pos h] at hout
      exact absurd hout (by simp)
  · constructor
    · intro _
      exact ⟨_, runVQ_ok' buffer ρ sh h⟩
    · intro _
      by_contra hno
      push_neg at hno
      exact h (List.length_eq_zero.mpr ((visibleColors_eq_nil_iff buffer).mpr hno))

/-- C10: the memoized Mapper is extensionally equal to the naive un-memoized Mapper. -/
theorem mapper_memo_refines_naive (buffer : List Pixel) (cb : List Color) :
    mapPixels buffer cb = mapPixelsNaive buffer cb :=
  mapPixels_eq_naive buffer cb

/-- C2 counterexample: on a single-pixel image the final codebook has 1 entry, not 64
(`slice(0, K)` truncates instead of padding, and the update loop never grows it). -/
theorem codebook_size_counterexample :
    (runVQ bufOne rngZero id).toOption.map (fun o => o.codebook.length) = some 1 ∧
    (runVQ bufOne rngZero id).toOption.map (fun o => o.codebook.length) ≠ some 64 := by
  constructor
  · rfl
  · decide

/-- C2 amended: the codebook holds exactly `min 64 n` entries (`n` the training-set
size), its size is invariant across every iteration, and an entry whose cluster is
empty is reinitialized in place to one of the training vectors, never removed. -/
theorem codebook_size_invariant (tp : List Color) (ρ : Nat → Nat) (fuel c : Nat) :
    (kmeansLoop tp ρ fuel (tp.take 64) c).length = min 64 tp.length ∧
    (∀ (cb : List Color) (c2 : Nat), (updateStep tp cb ρ c2).1.length = cb.length) ∧
    (∀ (cb : List Color) (c2 j : Nat), j < cb.length → tp ≠ [] →
      (iterCounts tp cb).getD j 0 = 0 →
      (updateStep tp cb ρ c2).1.getD j (0, 0, 0) ∈ tp) := by
  refine ⟨?_, ?_, ?_⟩
  · rw [kmeansLoop_length, List.length_take]
  · intro cb c2
    exact updateStep_length tp cb ρ c2
  · intro cb c2 j hj htp hzero
    rw [updateStep_eq]
    exact updateEntries_getD_zero_mem _ _ _ _ htp cb 0 c2 j hj (by simpa using hzero)

/-- C2 amended witness: the size invariant evaluated on the duplicate-color training
triple. -/
theorem codebook_size_invariant_witness :
    (kmeansLoop trainTriple rngTwo 10 (trainTriple.take 64) 0).length
        = min 64 trainTriple.length ∧
    (∀ (cb : List Color) (c2 : Nat),
      (updateStep trainTriple cb rngTwo c2).1.length = cb.length) ∧
    (∀ (cb : List Color) (c2 j : Nat), j < cb.length → trainTriple ≠ [] →
      (iterCounts trainTriple cb).getD j 0 = 0 →
      (updateStep trainTriple cb rngTwo c2).1.getD j (0, 0, 0) ∈ trainTriple) :=
  codebook_size_invariant trainTriple rngTwo 10 0


lemma trainingOf_ne_nil (buffer : List Pixel) (shuffle : List Color → List Color)
    (hsh : ∀ l : List Color, (shuffle l).length = l.length)
    (hvis : ¬ (visibleColors buffer).length = 0) :
    trainingOf buffer shuffle ≠ [] := by
  rw [trainingOf]
  by_cases hgt : 40000 < (visibleColors buffer).length
  · rw [if_pos hgt]
    intro hcon
    have := congrArg List.length hcon
    rw [List.length_take, hsh] at this
    simp only [List.length_nil] at this
    omega
  · rw [if_neg hgt]
    intro hcon
    exact hvis (by rw [hcon]; rfl)

lemma codebookOf_ne_nil (buffer : List Pixel) (ρ : Nat → Nat)
    (shuffle : List Color → List Color)
    (hsh : ∀ l : List Color, (shuffle l).length = l.length)
    (hvis : ¬ (visibleColors buffer).length = 0) :
    codebookOf buffer ρ shuffle ≠ [] := by
  have htr := trainingOf_ne_nil buffer shuffle hsh hvis
  rw [codebookOf]
  intro hcon
  have := congrArg List.length hcon
  rw [kmeansLoop_length, List.length_take] at this
  simp only [List.length_nil] at this
  have hlen0 : (trainingOf buffer shuffle).length = 0 := by omega
  exact htr (List.length_eq_zero.mp hlen0)

/-- C4: every pixel of the Mapper's output buffer carries an RGB triplet that is
exactly one of the final codebook's entries.  The `shuffle` abstraction of the
source's randomized sort is assumed length-preserving, as a JavaScript sort is. -/
theorem mapper_output_in_codebook (buffer : List Pixel) (ρ : Nat → Nat)
    (sh : List Color → List Color) (out : VQOutcome)
    (hsh : ∀ l : List Color, (sh l).length = l.length)
    (h : runVQ buffer ρ sh = .ok out) :
    ∀ px ∈ out.mapped, (px.r, px.g, px.b) ∈ out.codebook := by
  by_cases hvis : (visibleColors buffer).length = 0
  · rw [runVQ, if_pos hvis] at h
    exact absurd h (by simp)
  · rw [runVQ_ok' buffer ρ sh hvis] at h
    injection h with h
    rw [← h]
    intro px hpx
    rw [mapPixels_eq_naive] at hpx
    exact mapPixelsNaive_rgb_mem buffer _ (codebookOf_ne_nil buffer ρ sh hsh hvis) px hpx

/-- C4 witness: membership of every output triplet on the two-pixel image. -/
theorem mapper_output_in_codebook_witness :
    runVQ bufTwo rngZero id
        = .ok ⟨[⟨10, 0, 0, 255⟩, ⟨20, 0, 0, 255⟩], [(10, 0, 0), (20, 0, 0)]⟩ ∧
    ∀ px ∈ (VQOutcome.mk [⟨10, 0, 0, 255⟩, ⟨20, 0, 0, 255⟩] [(10, 0, 0), (20, 0, 0)]).mapped,
      (px.r, px.g, px.b)
        ∈ (VQOutcome.mk [⟨10, 0, 0, 255⟩, ⟨20, 0, 0, 255⟩] [(10, 0, 0), (20, 0, 0)]).codebook :=
  ⟨rfl, mapper_output_in_codebook bufTwo rngZero id _ (fun _ => rfl) rfl⟩

/-- C5 counterexample: with training `[(0,0,0),(0,0,0),(9,9,9)]` and a reseed that moves
entry 1 from `(0,0,0)` to `(9,9,9)`, the iteration reports `hasChanged = false` — so the
loop exits — although the reinitialized entry moved by far more than `1e-4`. -/
theorem convergence_check_counterexample :
    (updateStep trainTriple trainTriple rngTwo 0).2.1 = false ∧
    exceedsTol (euclideanDistanceSq
      ((updateStep trainTriple trainTriple rngTwo 0).1.getD 1 (0, 0, 0))
      (trainTriple.getD 1 (0, 0, 0))) = true := by
  decide

/-- C5 amended: an iteration's `hasChanged` is true iff some codebook entry whose cluster
is NONEMPTY moved by more than `1e-4` (squared distance) from its pre-update value —
entries reinitialized because their cluster was empty are not consulted — and the loop
continues after an iteration exactly when `hasChanged` is true. -/
theorem convergence_check_spec (tp cb : List Color) (ρ : Nat → Nat) (c fuel : Nat)
    (hne : cb ≠ []) (hk : cb.length ≤ 64) :
    ((updateStep tp cb ρ c).2.1 = true ↔
      ∃ j, j < cb.length ∧ clusterMembers tp cb j ≠ [] ∧
        exceedsTol (euclideanDistanceSq
          (roundMean (colorSum (clusterMembers tp cb j)) (clusterMembers tp cb j).length)
          (cb.getD j (0, 0, 0))) = true) ∧
    kmeansLoop tp ρ (fuel + 1) cb c
      = (if (updateStep tp cb ρ c).2.1 then
           kmeansLoop tp ρ fuel (updateStep tp cb ρ c).1 (updateStep tp cb ρ c).2.2
         else (updateStep tp cb ρ c).1) := by
  refine ⟨?_, kmeansLoop_succ tp ρ fuel cb c⟩
  rw [updateStep_eq, updateEntries_changed_iff]
  constructor
  · rintro ⟨j, hj, hcnt, hx⟩
    have hj64 : j < 64 := lt_of_lt_of_le hj hk
    have hc := iterCounts_getD tp cb hne hk hj64
    rw [iterCounts] at hc
    rw [Nat.zero_add] at hcnt hx
    rw [hc] at hcnt hx
    refine ⟨j, hj, List.length_pos.mp hcnt, ?_⟩
    rw [iterSums_getD tp cb hne hk hj64] at hx
    exact hx
  · rintro ⟨j, hj, hmem, hx⟩
    have hj64 : j < 64 := lt_of_lt_of_le hj hk
    have hc := iterCounts_getD tp cb hne hk hj64
    rw [iterCounts] at hc
    refine ⟨j, hj, ?_, ?_⟩
    · rw [Nat.zero_add, hc]
      exact List.length_pos.mpr hmem
    · rw [Nat.zero_add, hc, iterSums_getD tp cb hne hk hj64]
      exact hx

/-- C5 amended witness: the convergence characterization evaluated on the duplicate-color
training triple. -/
theorem convergence_check_spec_witness :
    ((updateStep trainTriple trainTriple rngTwo 0).2.1 = true ↔
      ∃ j, j < trainTriple.length ∧ clusterMembers trainTriple trainTriple j ≠ [] ∧
        exceedsTol (euclideanDistanceSq
          (roundMean (colorSum (clusterMembers trainTriple trainTriple j))
            (clusterMembers trainTriple trainTriple j).length)
          (trainTriple.getD j (0, 0, 0))) = true) ∧
    kmeansLoop trainTriple rngTwo (9 + 1) trainTriple 0
      = (if (updateStep trainTriple trainTriple rngTwo 0).2.1 then
           kmeansLoop trainTriple rngTwo 9 (updateStep trainTriple trainTriple rngTwo 0).1
             (updateStep trainTriple trainTriple rngTwo 0).2.2
         else (updateStep trainTriple trainTriple rngTwo 0).1) :=
  convergence_check_spec trainTriple trainTriple rngTwo 0 9 (by decide) (by decide)

/-- C6: in every iteration each training vector is assigned to the lowest-index codebook
entry achieving the minimum squared RGB distance (first-minimum tie-break), and each
codebook index with at least one assigned vector is replaced by the componentwise
`Math.round`ed mean of its assigned vectors. -/
theorem assignment_update_spec (tp cb : List Color) (ρ : Nat → Nat) (c : Nat)
    (hne : cb ≠ []) (hk : cb.length ≤ 64) :
    (assignStep tp cb = tp.map fun p => bestIdx p cb) ∧
    (∀ p ∈ tp,
      bestIdx p cb < cb.length ∧
      (∀ i, i < cb.length → entryDist p cb (bestIdx p cb) ≤ entryDist p cb i) ∧
      (∀ i, i < bestIdx p cb → entryDist p cb (bestIdx p cb) < entryDist p cb i)) ∧
    (∀ j, j < cb.length → clusterMembers tp cb j ≠ [] →
      (updateStep tp cb ρ c).1.getD j (0, 0, 0)
        = roundMean (colorSum (clusterMembers tp cb j)) (clusterMembers tp cb j).length) := by
  refine ⟨rfl, ?_, ?_⟩
  · intro p _
    exact bestIdx_spec p cb hne
  · intro j hj hmem
    have hj64 : j < 64 := lt_of_lt_of_le hj hk
    have hc := iterCounts_getD tp cb hne hk hj64
    rw [iterCounts] at hc
    rw [updateStep_eq]
    rw [updateEntries_getD_pos _ _ _ _ cb 0 c j hj
      (by rw [Nat.zero_add, hc]; exact List.length_pos.mpr hmem)]
    rw [Nat.zero_add, hc, iterSums_getD tp cb hne hk hj64]

/-- C6 witness: the assignment/update characterization evaluated on the duplicate-color
training triple. -/
theorem assignment_update_spec_witness :
    (assignStep trainTriple trainTriple = trainTriple.map fun p => bestIdx p trainTriple) ∧
    (∀ p ∈ trainTriple,
      bestIdx p trainTriple < trainTriple.length ∧
      (∀ i, i < trainTriple.length →
        entryDist p trainTriple (bestIdx p trainTriple) ≤ entryDist p trainTriple i) ∧
      (∀ i, i < bestIdx p trainTriple →
        entryDist p trainTriple (bestIdx p trainTriple) < entryDist p trainTriple i)) ∧
    (∀ j, j < trainTriple.length → clusterMembers trainTriple trainTriple j ≠ [] →
      (updateStep trainTriple trainTriple rngTwo 0).1.getD j (0, 0, 0)
        = roundMean (colorSum (clusterMembers trainTriple trainTriple j))
            (clusterMembers trainTriple trainTriple j).length) :=
  assignment_update_spec trainTriple trainTriple rngTwo 0 (by decide) (by decide)


/-- C7 counterexample: a 1024×1 image has positive dimensions, yet the resize produces
height `Math.round(1 * 256 / 1024) = 0`, so the output dimensions are not both
positive as claimed. -/
theorem resize_counterexample :
    (0 < 1024 ∧ 0 < 1) ∧ resize 1024 1 = (256, 0) ∧ ¬ 0 < (resize 1024 1).2 := by
  decide

/-- C7 amended: for positive dimensions the resize leaves images with both sides ≤ 256
untouched, otherwise scales so the longer side is exactly 256; the output area is always
≤ 65536; and both output dimensions are positive provided the aspect ratio is at most
512 (rounding collapses the short side to 0 beyond that). -/
theorem resize_spec (w h : Nat) (hw : 0 < w) (hh : 0 < h) :
    (max w h ≤ 256 → resize w h = (w, h)) ∧
    (256 < max w h → max (resize w h).1 (resize w h).2 = 256) ∧
    (resize w h).1 * (resize w h).2 ≤ 65536 ∧
    (max w h ≤ 512 * min w h → 0 < (resize w h).1 ∧ 0 < (resize w h).2) := by
  rw [resize]
  by_cases hlt : h < w
  · rw [if_pos hlt]
    by_cases h256 : 256 < w
    · rw [if_pos h256]
      have hle : jsRound (h * 256) w ≤ 256 := jsRound_le_256 (le_of_lt hlt) hw
      refine ⟨fun hmax => absurd hmax (by omega), fun _ => by simp only; omega, ?_, ?_⟩
      · simp only
        omega
      · intro hratio
        have hmin : min w h = h := by omega
        rw [hmin] at hratio
        have hmax : max w h = w := by omega
        rw [hmax] at hratio
        exact ⟨by omega, jsRound_pos hw hratio⟩
    · rw [if_neg h256]
      refine ⟨fun _ => rfl, fun hmax => absurd hmax (by omega), ?_, fun _ => ⟨hw, hh⟩⟩
      simp only
      calc w * h ≤ 256 * 256 := Nat.mul_le_mul (by omega) (by omega)
        _ ≤ 65536 := by omega
  · rw [if_neg hlt]
    by_cases h256 : 256 < h
    · rw [if_pos h256]
      have hle : jsRound (w * 256) h ≤ 256 := jsRound_le_256 (by omega) hh
      refine ⟨fun hmax => absurd hmax (by omega), fun _ => by simp only; omega, ?_, ?_⟩
      · simp only
        omega
      · intro hratio
        have hmin : min w h = w := by omega
        rw [hmin] at hratio
        have hmax : max w h = h := by omega
        rw [hmax] at hratio
        exact ⟨jsRound_pos hh hratio, by omega⟩
    · rw [if_neg h256]
      refine ⟨fun _ => rfl, fun hmax => absurd hmax (by omega), ?_, fun _ => ⟨hw, hh⟩⟩
      simp only
      calc w * h ≤ 256 * 256 := Nat.mul_le_mul (by omega) (by omega)
        _ ≤ 65536 := by omega

/-- C7 amended witness: the resize characterization evaluated at a 300×200 image. -/
theorem resize_spec_witness :
    (0 < 300 ∧ 0 < 200) ∧
    ((max 300 200 ≤ 256 → resize 300 200 = (300, 200)) ∧
     (256 < max 300 200 → max (resize 300 200).1 (resize 300 200).2 = 256) ∧
     (resize 300 200).1 * (resize 300 200).2 ≤ 65536 ∧
     (max 300 200 ≤ 512 * min 300 200 → 0 < (resize 300 200).1 ∧ 0 < (resize 300 200).2)) :=
  ⟨by decide, resize_spec 300 200 (by decide) (by decide)⟩

/-- C9 counterexample: on a buffer with only 4 visible pixels (far below 40000), two
random streams give different final images: the empty-cluster reseed changes which
codebook entry wins the first-minimum tie-break for the transparent probe pixel, so
the pipeline is not fully deterministic below the subsampling threshold. -/
theorem determinism_counterexample :
    (visibleColors bufProbe).length ≤ 40000 ∧
    (runVQ bufProbe rngZero id).toOption.map (fun o => o.mapped)
      ≠ (runVQ bufProbe rngThree id).toOption.map (fun o => o.mapped) := by
  refine ⟨by decide, ?_⟩
  have hA : (runVQ bufProbe rngZero id).toOption.map (fun o => o.mapped)
      = some [⟨0, 0, 0, 255⟩, ⟨0, 0, 0, 255⟩, ⟨10, 0, 0, 255⟩, ⟨20, 0, 0, 255⟩,
          ⟨10, 0, 0, 0⟩] := rfl
  have hB : (runVQ bufProbe rngThree id).toOption.map (fun o => o.mapped)
      = some [⟨0, 0, 0, 255⟩, ⟨0, 0, 0, 255⟩, ⟨10, 0, 0, 255⟩, ⟨20, 0, 0, 255⟩,
          ⟨20, 0, 0, 0⟩] := rfl
  rw [hA, hB]
  decide

/-- C9 amended: with at most 40000 visible pixels the training set is exactly the
visible-pixel sequence (the subsampling never fires), and whenever no cluster is empty
in any executed iteration the pipeline result is independent of the random source. -/
theorem determinism_no_empty_clusters (buffer : List Pixel)
    (ρ1 ρ2 : Nat → Nat) (sh1 sh2 : List Color → List Color)
    (hle : (visibleColors buffer).length ≤ 40000)
    (hrun : noEmptyRun (visibleColors buffer) 10 ((visibleColors buffer).take 64) = true) :
    trainingOf buffer sh1 = visibleColors buffer ∧
    runVQ buffer ρ1 sh1 = runVQ buffer ρ2 sh2 := by
  have htr : ∀ sh : List Color → List Color, trainingOf buffer sh = visibleColors buffer := by
    intro sh
    rw [trainingOf, if_neg (by omega)]
  refine ⟨htr sh1, ?_⟩
  by_cases hvis : (visibleColors buffer).length = 0
  · rw [runVQ, runVQ, if_pos hvis, if_pos hvis]
  · rw [runVQ_ok' buffer ρ1 sh1 hvis, runVQ_ok' buffer ρ2 sh2 hvis]
    have hcb : codebookOf buffer ρ1 sh1 = codebookOf buffer ρ2 sh2 := by
      rw [codebookOf, codebookOf, htr sh1, htr sh2]
      exact kmeansLoop_rng_irrel _ 10 _ hrun ρ1 0 ρ2 0
    rw [hcb]

/-- C9 amended witness: two distinct random streams produce the same result on the
two-pixel image, whose clustering never has an empty cluster. -/
theorem determinism_no_empty_clusters_witness :
    (visibleColors bufTwo).length ≤ 40000 ∧
    noEmptyRun (visibleColors bufTwo) 10 ((visibleColors bufTwo).take 64) = true ∧
    (trainingOf bufTwo id = visibleColors bufTwo ∧
      runVQ bufTwo rngZero id = runVQ bufTwo rngThree id) :=
  ⟨by decide, by decide,
    determinism_no_empty_clusters bufTwo rngZero rngThree id id (by decide) (by decide)⟩

end VQ
